import Mathlib

set_option maxHeartbeats 1000000

/-
Shallow embedding of the key-value engine in `src/include/kv_storage.h`
(template class `KVStorage<Clock>`), together with the clock abstraction
used by the repository (a settable test clock).

Modelling choices:
* `Clock::time_point` is modelled as `Nat` (an instant, in seconds).  The
  stored clock object `clock_` is modelled by the instant it currently
  reports (field `now`); advancing or setting the clock replaces that field.
* `std::map<std::string, Record> records_` is modelled as an association
  list sorted strictly by key; `std::set<ExpiryEntry> expiry_queue_` as a
  list sorted strictly by the `ExpiryEntry` ordering.  These sortedness
  facts are the predicates `RecordsSorted` and `QueueSorted` below; they
  hold for every storage the C++ containers can actually represent.
* `uint32_t ttl` and `uint32_t count` are modelled as `Nat`: the source
  never performs wrapping arithmetic on them (`now + seconds(ttl)` is
  `chrono` arithmetic on 64-bit representations).
* The `std::shared_mutex` only serializes operations; each operation is a
  function from the storage state (and its arguments) to a result and a
  successor state.
-/

/-- `std::string::operator<` on the underlying character sequences:
lexicographic comparison, character by character, by code point. -/
def charListLtb : List Char → List Char → Bool
  | _, [] => false
  | [], _ :: _ => true
  | a :: as, b :: bs =>
    if a.toNat < b.toNat then true
    else if b.toNat < a.toNat then false
    else charListLtb as bs

/-- `std::string::operator<` on `String`. -/
def strLtb (a b : String) : Bool :=
  charListLtb a.data b.data

/-- Propositional form of `strLtb`. -/
def strLt (a b : String) : Prop :=
  strLtb a b = true

instance (a b : String) : Decidable (strLt a b) :=
  inferInstanceAs (Decidable (strLtb a b = true))

/-- `KVStorage::Record`: a stored value with an optional expiry instant. -/
structure Record where
  value : String
  expiry : Option Nat
deriving DecidableEq

/-- `KVStorage::ExpiryEntry`: an (expiry instant, key) pair of the expiry index. -/
structure ExpiryEntry where
  expiry : Nat
  key : String
deriving DecidableEq

/-- `ExpiryEntry::operator<`: `std::tie(expiry, key) < std::tie(other.expiry, other.key)`,
i.e. lexicographic comparison, instant first, key as tie-break. -/
def ExpiryEntry.ltb (a b : ExpiryEntry) : Bool :=
  decide (a.expiry < b.expiry) || (decide (a.expiry = b.expiry) && strLtb a.key b.key)

/-- Propositional form of `ExpiryEntry.ltb`. -/
def ExpiryEntry.lt (a b : ExpiryEntry) : Prop :=
  a.expiry < b.expiry ∨ (a.expiry = b.expiry ∧ strLt a.key b.key)

/-- `std::map::find`: lookup of a key in the association list. -/
def mfind : List (String × Record) → String → Option Record
  | [], _ => none
  | (k, r) :: tl, key => if k = key then some r else mfind tl key

/-- `records_[key] = rec`: `std::map` insert-or-assign, keeping the list
sorted by key (insertion at the ordered position; assignment if present). -/
def massign : List (String × Record) → String → Record → List (String × Record)
  | [], key, rec => [(key, rec)]
  | (k, r) :: tl, key, rec =>
    if strLtb key k then (key, rec) :: (k, r) :: tl
    else if k = key then (key, rec) :: tl
    else (k, r) :: massign tl key rec

/-- `std::map::erase(key)`: removes the entry with that key, if present. -/
def merase : List (String × Record) → String → List (String × Record)
  | [], _ => []
  | (k, r) :: tl, key => if k = key then tl else (k, r) :: merase tl key

/-- `std::set::insert`: ordered insertion, no effect if the element is present. -/
def qinsert : List ExpiryEntry → ExpiryEntry → List ExpiryEntry
  | [], x => [x]
  | y :: tl, x =>
    if x.ltb y then x :: y :: tl
    else if y = x then y :: tl
    else y :: qinsert tl x

/-- `std::set::erase(value)`: removes the element, if present. -/
def qerase : List ExpiryEntry → ExpiryEntry → List ExpiryEntry
  | [], _ => []
  | y :: tl, x => if y = x then tl else y :: qerase tl x

/-- The engine state: `records_` (Record Store), `expiry_queue_` (Expiry Index)
and the instant currently reported by `clock_`. -/
structure KVStorage where
  records_ : List (String × Record)
  expiry_queue_ : List ExpiryEntry
  now : Nat
deriving DecidableEq

namespace KVStorage

/-- An engine with no entries whose clock currently reports `now`
(`KVStorage({})` in the repository's tests). -/
def empty (now : Nat) : KVStorage :=
  { records_ := [], expiry_queue_ := [], now := now }

/-- `KVStorage::set(key, value, ttl)`: computes
`expiry = (ttl != 0) ? now() + seconds(ttl) : nullopt`, assigns
`records_[key] = {value, expiry}` and, if `expiry` is set, inserts
`{*expiry, key}` into `expiry_queue_`.  Note that the source does NOT
erase a previous expiry pair of an overwritten key. -/
def set (st : KVStorage) (key value : String) (ttl : Nat) : KVStorage :=
  let expiry : Option Nat := if ttl ≠ 0 then some (st.now + ttl) else none
  { st with
    records_ := massign st.records_ key ⟨value, expiry⟩,
    expiry_queue_ :=
      match expiry with
      | some e => qinsert st.expiry_queue_ ⟨e, key⟩
      | none => st.expiry_queue_ }

/-- `KVStorage::remove(key)`: if the key is absent returns `false` with no
effect; otherwise erases the record, erases `{*expiry, key}` from the
queue when the record has an expiry, and returns `true`. -/
def remove (st : KVStorage) (key : String) : Bool × KVStorage :=
  match mfind st.records_ key with
  | none => (false, st)
  | some r =>
    (true,
     { st with
       records_ := merase st.records_ key,
       expiry_queue_ :=
         match r.expiry with
         | some e => qerase st.expiry_queue_ ⟨e, key⟩
         | none => st.expiry_queue_ })

/-- `KVStorage::get(key)` (a `const` method: it returns the unchanged state
as second component): absent key gives `none`; a record whose expiry is set
and `<= now()` gives `none`; otherwise the stored value. -/
def get (st : KVStorage) (key : String) : Option String × KVStorage :=
  (match mfind st.records_ key with
   | none => none
   | some r =>
     match r.expiry with
     | some e => if e ≤ st.now then none else some r.value
     | none => some r.value,
   st)

/-- The `while` loop of `getManySorted`: walk forward, append entries whose
expiry is unset or `> now`, stop when `count` entries are collected or the
store is exhausted (`count` here is `count - result.size()`). -/
def collectLoop (now : Nat) : List (String × Record) → Nat → List (String × String)
  | _, 0 => []
  | [], _ + 1 => []
  | (k, r) :: tl, c + 1 =>
    match r.expiry with
    | none => (k, r.value) :: collectLoop now tl c
    | some e =>
      if now < e then (k, r.value) :: collectLoop now tl c
      else collectLoop now tl (c + 1)

/-- `KVStorage::getManySorted(key, count)` (a `const` method):
`lower_bound(key)`, skip an exact match on `key`, then collect up to
`count` non-expired entries in ascending key order. -/
def getManySorted (st : KVStorage) (key : String) (count : Nat) :
    List (String × String) × KVStorage :=
  let lb := st.records_.dropWhile (fun p => strLtb p.1 key)
  let start :=
    match lb with
    | p :: tl => if p.1 = key then tl else p :: tl
    | [] => []
  (collectLoop st.now start count, st)

/-- `KVStorage::removeOneExpiredEntry()`: inspects the minimum of
`expiry_queue_` (the head of the sorted list); if its instant is
`<= now()`, erases that key from both structures and returns (key, value).
`records_[it->key]` uses `std::map::operator[]`: when the key is absent
(an orphaned queue entry) it default-constructs a record whose value is
the empty string, which the following `erase` removes again, so the net
effect on the record store is the erase and the value read is `""`.
(The source reads `it->key` once more after `expiry_queue_.erase(it)`; we
give that read its evidently intended value, the key of the erased
minimum.) -/
def removeOneExpiredEntry (st : KVStorage) : Option (String × String) × KVStorage :=
  match st.expiry_queue_ with
  | [] => (none, st)
  | ent :: rest =>
    if ent.expiry ≤ st.now then
      let value :=
        match mfind st.records_ ent.key with
        | some r => r.value
        | none => ""
      (some (ent.key, value),
       { st with records_ := merase st.records_ ent.key, expiry_queue_ := rest })
    else (none, st)

/-- The loop of the constructor
`KVStorage(std::span<std::tuple<std::string, std::string, uint32_t>>, Clock)`:
`for (auto &[key, value, ttl] : entries) set(key, value, ttl);`. -/
def ctorLoop : List (String × String × Nat) → KVStorage → KVStorage
  | [], st => st
  | (k, v, t) :: tl, st => ctorLoop tl (st.set k v t)

/-- The bulk constructor: starts from an engine holding the given clock and
no entries, and runs the constructor loop. -/
def ofEntries (entries : List (String × String × Nat)) (now : Nat) : KVStorage :=
  ctorLoop entries (empty now)

/-- The clock abstraction's time passage (`TestClock::advance` in the
repository's tests): the engine state is unchanged except for the instant
the clock reports. -/
def advance (st : KVStorage) (d : Nat) : KVStorage :=
  { st with now := st.now + d }

/-- Sortedness of the Record Store: what `std::map<std::string, Record>`
guarantees for every representable state. -/
def RecordsSorted (st : KVStorage) : Prop :=
  st.records_.Pairwise (fun p q => strLt p.1 q.1)

/-- Sortedness of the Expiry Index: what `std::set<ExpiryEntry>` guarantees
for every representable state. -/
def QueueSorted (st : KVStorage) : Prop :=
  st.expiry_queue_.Pairwise ExpiryEntry.lt

/-- Container well-formedness of a state. -/
def WF (st : KVStorage) : Prop :=
  RecordsSorted st ∧ QueueSorted st

/-- Invariant I1 of the spec: a key `k` is stored with expiry `e` exactly
when the pair `(e, k)` is in the Expiry Index; no orphans either way. -/
def I1 (st : KVStorage) : Prop :=
  (∀ p ∈ st.records_, ∀ e, p.2.expiry = some e →
      (⟨e, p.1⟩ : ExpiryEntry) ∈ st.expiry_queue_) ∧
  (∀ q ∈ st.expiry_queue_, ∃ r, mfind st.records_ q.key = some r ∧
      r.expiry = some q.expiry)

/-- Executable form of invariant I1 (for evaluation on concrete states). -/
def I1check (st : KVStorage) : Bool :=
  (st.records_.all fun p =>
    match p.2.expiry with
    | some e => st.expiry_queue_.contains ⟨e, p.1⟩
    | none => true) &&
  (st.expiry_queue_.all fun q =>
    match mfind st.records_ q.key with
    | some r => decide (r.expiry = some q.expiry)
    | none => false)

/-- The collection condition of the `getManySorted` loop,
`!it->second.expiry || *it->second.expiry > clock_.now()`: the record is
live (not yet logically expired) at instant `now`. -/
def liveb (now : Nat) (r : Record) : Bool :=
  match r.expiry with
  | some e => decide (now < e)
  | none => true

/-- No pair of the Expiry Index carries key `k0`. -/
def NoKeyInQueue (k0 : String) (st : KVStorage) : Prop :=
  ∀ q ∈ st.expiry_queue_, q.key ≠ k0

/-- One public operation of the engine that is not a `set` of key `k0`,
including passage of time on the clock. -/
inductive StepAvoiding (k0 : String) : KVStorage → KVStorage → Prop
  | set (st : KVStorage) (key value : String) (ttl : Nat) (hk : key ≠ k0) :
      StepAvoiding k0 st (st.set key value ttl)
  | remove (st : KVStorage) (key : String) :
      StepAvoiding k0 st (st.remove key).2
  | get (st : KVStorage) (key : String) :
      StepAvoiding k0 st (st.get key).2
  | getManySorted (st : KVStorage) (key : String) (count : Nat) :
      StepAvoiding k0 st (st.getManySorted key count).2
  | removeOneExpiredEntry (st : KVStorage) :
      StepAvoiding k0 st st.removeOneExpiredEntry.2
  | advance (st : KVStorage) (d : Nat) :
      StepAvoiding k0 st (st.advance d)

/-- States reachable by any sequence of operations none of which is a
`set` of key `k0`. -/
inductive ReachAvoiding (k0 : String) : KVStorage → KVStorage → Prop
  | refl (st : KVStorage) : ReachAvoiding k0 st st
  | tail {st st2 st3 : KVStorage} :
      ReachAvoiding k0 st st2 → StepAvoiding k0 st2 st3 → ReachAvoiding k0 st st3

end KVStorage

instance expiryEntryLtDec : DecidableRel ExpiryEntry.lt := fun a b =>
  inferInstanceAs (Decidable (a.expiry < b.expiry ∨ (a.expiry = b.expiry ∧ strLt a.key b.key)))

instance keyLtDec : DecidableRel (fun (p q : String × Record) => strLt p.1 q.1) := fun p q =>
  inferInstanceAs (Decidable (strLt p.1 q.1))

instance recordsSortedDec (st : KVStorage) : Decidable st.RecordsSorted :=
  inferInstanceAs (Decidable (st.records_.Pairwise fun (p q : String × Record) => strLt p.1 q.1))

instance queueSortedDec (st : KVStorage) : Decidable st.QueueSorted :=
  inferInstanceAs (Decidable (st.expiry_queue_.Pairwise ExpiryEntry.lt))

-- Theorems about the embedding and the claims.

theorem char_toNat_inj {a b : Char} (h : a.toNat = b.toNat) : a = b := by
  cases a; cases b
  simp only [Char.toNat] at h
  congr 1
  exact UInt32.toNat.inj h

theorem charListLtb_irrefl : ∀ l, charListLtb l l = false
  | [] => rfl
  | a :: as => by
    simp [charListLtb, charListLtb_irrefl as]

theorem charListLtb_asymm : ∀ l m, charListLtb l m = true → charListLtb m l = false := by
  intro l
  induction l with
  | nil =>
    intro m h
    cases m with
    | nil => simp [charListLtb] at h
    | cons b bs => simp [charListLtb]
  | cons a as ih =>
    intro m h
    cases m with
    | nil => simp [charListLtb] at h
    | cons b bs =>
      simp only [charListLtb] at h ⊢
      by_cases h1 : a.toNat < b.toNat
      · have h2 : ¬ b.toNat < a.toNat := Nat.lt_asymm h1
        simp [h1, h2]
      · by_cases h2 : b.toNat < a.toNat
        · simp [h1, h2] at h
        · simp only [if_neg h1, if_neg h2] at h ⊢
          exact ih bs h

theorem charListLtb_trans :
    ∀ l m n, charListLtb l m = true → charListLtb m n = true → charListLtb l n = true := by
  intro l
  induction l with
  | nil =>
    intro m n h1 h2
    cases m with
    | nil => simp [charListLtb] at h1
    | cons b bs =>
      cases n with
      | nil => simp [charListLtb] at h2
      | cons c cs => simp [charListLtb]
  | cons a as ih =>
    intro m n h1 h2
    cases m with
    | nil => simp [charListLtb] at h1
    | cons b bs =>
      cases n with
      | nil => simp [charListLtb] at h2
      | cons c cs =>
        simp only [charListLtb] at h1 h2 ⊢
        by_cases hab : a.toNat < b.toNat
        · by_cases hbc : b.toNat < c.toNat
          · simp [Nat.lt_trans hab hbc]
          · by_cases hcb : c.toNat < b.toNat
            · simp [hbc, hcb] at h2
            · have hbc2 : b.toNat = c.toNat := Nat.le_antisymm (Nat.le_of_not_lt hcb) (Nat.le_of_not_lt hbc)
              simp [hbc2 ▸ hab]
        · by_cases hba : b.toNat < a.toNat
          · simp [hab, hba] at h1
          · have hab2 : a.toNat = b.toNat := Nat.le_antisymm (Nat.le_of_not_lt hba) (Nat.le_of_not_lt hab)
            simp only [if_neg hab, if_neg hba] at h1
            by_cases hbc : b.toNat < c.toNat
            · simp [hab2 ▸ hbc]
            · by_cases hcb : c.toNat < b.toNat
              · simp [hbc, hcb] at h2
              · simp only [if_neg hbc, if_neg hcb] at h2
                have hac : ¬ a.toNat < c.toNat := hab2 ▸ hbc
                have hca : ¬ c.toNat < a.toNat := hab2 ▸ hcb
                simp only [if_neg hac, if_neg hca]
                exact ih bs cs h1 h2

theorem charListLtb_total_eq :
    ∀ l m, charListLtb l m = false → charListLtb m l = false → l = m := by
  intro l
  induction l with
  | nil =>
    intro m h1 _
    cases m with
    | nil => rfl
    | cons b bs => simp [charListLtb] at h1
  | cons a as ih =>
    intro m h1 h2
    cases m with
    | nil => simp [charListLtb] at h2
    | cons b bs =>
      simp only [charListLtb] at h1 h2
      by_cases hab : a.toNat < b.toNat
      · simp [hab] at h1
      · by_cases hba : b.toNat < a.toNat
        · simp [hba] at h2
        · simp only [if_neg hab, if_neg hba] at h1 h2
          have : a = b :=
            char_toNat_inj (Nat.le_antisymm (Nat.le_of_not_lt hba) (Nat.le_of_not_lt hab))
          rw [this, ih bs h1 h2]

theorem strLt_irrefl (a : String) : ¬ strLt a a := by
  simp [strLt, strLtb, charListLtb_irrefl]

theorem strLt_asymm {a b : String} (h : strLt a b) : ¬ strLt b a := by
  simp only [strLt, strLtb] at h ⊢
  simp [charListLtb_asymm _ _ h]

theorem strLt_trans {a b c : String} (h1 : strLt a b) (h2 : strLt b c) : strLt a c :=
  charListLtb_trans _ _ _ h1 h2

theorem strLt_total_eq {a b : String} (h1 : ¬ strLt a b) (h2 : ¬ strLt b a) : a = b := by
  simp only [strLt, strLtb, Bool.not_eq_true] at h1 h2
  cases a; cases b
  congr 1
  exact charListLtb_total_eq _ _ h1 h2

theorem strLt_ne {a b : String} (h : strLt a b) : a ≠ b := by
  intro he
  exact strLt_irrefl a (he ▸ h)

theorem ExpiryEntry.ltb_eq_true_iff {a b : ExpiryEntry} : a.ltb b = true ↔ a.lt b := by
  simp [ExpiryEntry.ltb, ExpiryEntry.lt, strLt, Bool.or_eq_true, Bool.and_eq_true]

theorem ExpiryEntry.lt_irrefl (a : ExpiryEntry) : ¬ a.lt a := by
  intro h
  rcases h with h | ⟨_, h⟩
  · exact Nat.lt_irrefl _ h
  · exact strLt_irrefl _ h

theorem ExpiryEntry.lt_trans {a b c : ExpiryEntry} (h1 : a.lt b) (h2 : b.lt c) : a.lt c := by
  rcases h1 with h1 | ⟨he1, hk1⟩ <;> rcases h2 with h2 | ⟨he2, hk2⟩
  · exact Or.inl (Nat.lt_trans h1 h2)
  · exact Or.inl (he2 ▸ h1)
  · exact Or.inl (he1 ▸ h2)
  · exact Or.inr ⟨he1.trans he2, strLt_trans hk1 hk2⟩

theorem ExpiryEntry.lt_total_eq {a b : ExpiryEntry} (h1 : ¬ a.lt b) (h2 : ¬ b.lt a) : a = b := by
  simp only [ExpiryEntry.lt, not_or, not_and] at h1 h2
  obtain ⟨c1, c2⟩ := h1
  obtain ⟨c3, c4⟩ := h2
  have he : a.expiry = b.expiry := Nat.le_antisymm (Nat.le_of_not_lt c3) (Nat.le_of_not_lt c1)
  have hk : a.key = b.key := strLt_total_eq (c2 he) (c4 he.symm)
  cases a; cases b
  simp only at he hk
  rw [he, hk]

theorem ExpiryEntry.ne_of_lt {a b : ExpiryEntry} (h : a.lt b) : a ≠ b := by
  intro he
  exact ExpiryEntry.lt_irrefl a (he ▸ h)

theorem mfind_eq_none_iff {l : List (String × Record)} {key : String} :
    mfind l key = none ↔ ∀ p ∈ l, p.1 ≠ key := by
  induction l with
  | nil => simp [mfind]
  | cons p tl ih =>
    obtain ⟨k, r⟩ := p
    by_cases hk : k = key
    · subst hk
      simp [mfind]
    · simp [mfind, hk, ih]

theorem mfind_eq_some_mem {l : List (String × Record)} {key : String} {r : Record}
    (h : mfind l key = some r) : (key, r) ∈ l := by
  induction l with
  | nil => simp [mfind] at h
  | cons p tl ih =>
    obtain ⟨k, r2⟩ := p
    by_cases hk : k = key
    · subst hk
      simp [mfind] at h
      subst h
      exact List.mem_cons_self _ _
    · simp only [mfind, if_neg hk] at h
      exact List.mem_cons_of_mem _ (ih h)

theorem mem_mfind {l : List (String × Record)} {key : String} {r : Record}
    (hs : l.Pairwise fun p q => strLt p.1 q.1) (h : (key, r) ∈ l) :
    mfind l key = some r := by
  induction l with
  | nil => simp at h
  | cons p tl ih =>
    obtain ⟨k, r2⟩ := p
    rcases List.mem_cons.mp h with he | h
    · have hk : key = k := congrArg Prod.fst he
      have hr : r = r2 := congrArg Prod.snd he
      subst hk; subst hr
      simp [mfind]
    · have hk : k ≠ key := by
        intro he
        have := List.rel_of_pairwise_cons hs h
        simp only [he] at this
        exact strLt_irrefl key this
      simp only [mfind, if_neg hk]
      exact ih (List.Pairwise.sublist (List.sublist_cons_self _ _) hs) h

theorem mfind_massign_self (l : List (String × Record)) (key : String) (rec : Record) :
    mfind (massign l key rec) key = some rec := by
  induction l with
  | nil => simp [massign, mfind]
  | cons p tl ih =>
    obtain ⟨k, r⟩ := p
    by_cases h1 : strLtb key k
    · simp [massign, h1, mfind]
    · by_cases h2 : k = key
      · subst h2
        simp [massign, h1, mfind]
      · simp [massign, h1, h2, mfind, ih]

theorem mem_massign {l : List (String × Record)} {key : String} {rec : Record} {p} :
    p ∈ massign l key rec → p = (key, rec) ∨ p ∈ l := by
  induction l with
  | nil => simp [massign]
  | cons q tl ih =>
    obtain ⟨k, r⟩ := q
    by_cases h1 : strLtb key k
    · intro h
      simp only [massign, if_pos h1] at h
      rcases List.mem_cons.mp h with h | h
      · exact Or.inl h
      · exact Or.inr h
    · by_cases h2 : k = key
      · intro h
        simp only [massign, if_neg h1, if_pos h2] at h
        rcases List.mem_cons.mp h with h | h
        · exact Or.inl h
        · exact Or.inr (List.mem_cons_of_mem _ h)
      · intro h
        simp only [massign, if_neg h1, if_neg h2] at h
        rcases List.mem_cons.mp h with h | h
        · exact Or.inr (List.mem_cons.mpr (Or.inl h))
        · rcases ih h with h | h
          · exact Or.inl h
          · exact Or.inr (List.mem_cons_of_mem _ h)

theorem mem_merase {l : List (String × Record)} {key : String} {p} :
    p ∈ merase l key → p ∈ l := by
  induction l with
  | nil => simp [merase]
  | cons q tl ih =>
    obtain ⟨k, r⟩ := q
    by_cases h1 : k = key
    · intro h
      simp only [merase, if_pos h1] at h
      exact List.mem_cons_of_mem _ h
    · intro h
      simp only [merase, if_neg h1] at h
      rcases List.mem_cons.mp h with h | h
      · exact List.mem_cons.mpr (Or.inl h)
      · exact List.mem_cons_of_mem _ (ih h)

theorem mfind_merase_self {l : List (String × Record)} {key : String}
    (hs : l.Pairwise fun p q => strLt p.1 q.1) :
    mfind (merase l key) key = none := by
  induction l with
  | nil => simp [merase, mfind]
  | cons q tl ih =>
    obtain ⟨k, r⟩ := q
    by_cases h1 : k = key
    · subst h1
      simp only [merase, if_pos rfl]
      apply mfind_eq_none_iff.mpr
      intro p hp
      exact Ne.symm (strLt_ne (List.rel_of_pairwise_cons hs hp))
    · simp only [merase, if_neg h1, mfind, if_neg h1]
      exact ih (List.Pairwise.sublist (List.sublist_cons_self _ _) hs)

theorem mem_qinsert {l : List ExpiryEntry} {x y : ExpiryEntry} :
    y ∈ qinsert l x → y = x ∨ y ∈ l := by
  induction l with
  | nil => simp [qinsert]
  | cons z tl ih =>
    by_cases h1 : x.ltb z
    · intro h
      simp only [qinsert, if_pos h1] at h
      rcases List.mem_cons.mp h with h | h
      · exact Or.inl h
      · exact Or.inr h
    · by_cases h2 : z = x
      · intro h
        simp only [qinsert, if_neg h1, if_pos h2] at h
        exact Or.inr h
      · intro h
        simp only [qinsert, if_neg h1, if_neg h2] at h
        rcases List.mem_cons.mp h with h | h
        · exact Or.inr (List.mem_cons.mpr (Or.inl h))
        · rcases ih h with h | h
          · exact Or.inl h
          · exact Or.inr (List.mem_cons_of_mem _ h)

theorem mem_qerase {l : List ExpiryEntry} {x y : ExpiryEntry} :
    y ∈ qerase l x → y ∈ l := by
  induction l with
  | nil => simp [qerase]
  | cons z tl ih =>
    by_cases h1 : z = x
    · intro h
      simp only [qerase, if_pos h1] at h
      exact List.mem_cons_of_mem _ h
    · intro h
      simp only [qerase, if_neg h1] at h
      rcases List.mem_cons.mp h with h | h
      · exact List.mem_cons.mpr (Or.inl h)
      · exact List.mem_cons_of_mem _ (ih h)

theorem not_mem_qerase_self {l : List ExpiryEntry} {x : ExpiryEntry}
    (hs : l.Pairwise ExpiryEntry.lt) : x ∉ qerase l x := by
  induction l with
  | nil => simp [qerase]
  | cons z tl ih =>
    by_cases h1 : z = x
    · subst h1
      simp only [qerase, if_pos rfl]
      intro h
      exact ExpiryEntry.ne_of_lt (List.rel_of_pairwise_cons hs h) rfl
    · simp only [qerase, if_neg h1]
      intro h
      rcases List.mem_cons.mp h with h | h
      · exact h1 h.symm
      · exact ih (List.Pairwise.sublist (List.sublist_cons_self _ _) hs) h

theorem I1_iff_I1check (st : KVStorage) : st.I1 ↔ st.I1check = true := by
  simp only [KVStorage.I1, KVStorage.I1check, Bool.and_eq_true, List.all_eq_true]
  constructor
  · rintro ⟨h1, h2⟩
    constructor
    · intro p hp
      rcases he : p.2.expiry with _ | e
      · simp
      · simpa using h1 p hp e he
    · intro q hq
      obtain ⟨r, hr, hre⟩ := h2 q hq
      rw [hr]
      simp [hre]
  · rintro ⟨h1, h2⟩
    constructor
    · intro p hp e he
      have := h1 p hp
      rw [he] at this
      simpa using this
    · intro q hq
      have := h2 q hq
      rcases hr : mfind st.records_ q.key with _ | r
      · rw [hr] at this
        simp at this
      · rw [hr] at this
        simp only [decide_eq_true_eq] at this
        exact ⟨r, rfl, this⟩

theorem collectLoop_zero (now : Nat) (l : List (String × Record)) :
    KVStorage.collectLoop now l 0 = [] := by
  cases l <;> rfl

theorem collectLoop_eq (now : Nat) :
    ∀ (l : List (String × Record)) (c : Nat),
      KVStorage.collectLoop now l c =
        ((l.filter fun p => KVStorage.liveb now p.2).map fun p => (p.1, p.2.value)).take c := by
  intro l
  induction l with
  | nil => intro c; cases c <;> rfl
  | cons p tl ih =>
    intro c
    obtain ⟨k, r⟩ := p
    cases c with
    | zero => rfl
    | succ c =>
      rcases he : r.expiry with _ | e
      · have hl : KVStorage.liveb now r = true := by simp [KVStorage.liveb, he]
        simp only [KVStorage.collectLoop, he, List.filter_cons, hl, if_pos, List.map_cons,
          List.take_succ_cons, ih]
      · by_cases hlt : now < e
        · have hl : KVStorage.liveb now r = true := by simp [KVStorage.liveb, he, hlt]
          simp only [KVStorage.collectLoop, he, if_pos hlt, List.filter_cons, hl, List.map_cons,
            List.take_succ_cons, ih]
          simp
        · have hl : KVStorage.liveb now r = false := by simp [KVStorage.liveb, he, hlt]
          simp only [KVStorage.collectLoop, he, if_neg hlt, List.filter_cons, hl, ih]
          simp

theorem gms_start_eq (key : String) :
    ∀ l : List (String × Record), (l.Pairwise fun p q => strLt p.1 q.1) →
      (match l.dropWhile (fun p => strLtb p.1 key) with
       | p :: tl => if p.1 = key then tl else p :: tl
       | [] => ([] : List (String × Record))) =
        l.filter fun p => strLtb key p.1 := by
  intro l
  induction l with
  | nil => intro _; rfl
  | cons p tl ih =>
    intro hs
    obtain ⟨k, r⟩ := p
    by_cases h1 : strLtb k key
    · have h2 : strLtb key k = false := charListLtb_asymm _ _ h1
      simp only [List.dropWhile_cons, h1, if_pos, List.filter_cons, h2]
      simp only [Bool.false_eq_true, if_false]
      exact ih (List.Pairwise.sublist (List.sublist_cons_self _ _) hs)
    · by_cases h2 : k = key
      · subst h2
        have h3 : strLtb k k = false := charListLtb_irrefl _
        simp only [List.dropWhile_cons, h3, Bool.false_eq_true, if_false, if_pos rfl,
          List.filter_cons, h3]
        symm
        apply List.filter_eq_self.mpr
        intro q hq
        exact List.rel_of_pairwise_cons hs hq
      · have h4 : strLtb key k = true := by
          rcases hb : strLtb key k with _ | _
          · exact absurd (strLt_total_eq (by simp [strLt, h1]) (by simp [strLt, hb])) h2
          · rfl
        simp only [List.dropWhile_cons, h1, Bool.false_eq_true, if_false, h2,
          List.filter_cons, h4, if_pos]
        congr 1
        symm
        apply List.filter_eq_self.mpr
        intro q hq
        exact strLt_trans h4 (List.rel_of_pairwise_cons hs hq)

theorem getManySorted_eq (st : KVStorage) (key : String) (count : Nat)
    (hs : st.RecordsSorted) :
    (st.getManySorted key count).1 =
      ((st.records_.filter fun p => strLtb key p.1 && KVStorage.liveb st.now p.2).map
        fun p => (p.1, p.2.value)).take count := by
  have h1 := gms_start_eq key st.records_ hs
  show KVStorage.collectLoop st.now _ count = _
  rw [h1, collectLoop_eq, List.filter_filter]
  have h2 : (fun (a : String × Record) => KVStorage.liveb st.now a.2 && strLtb key a.1) =
      (fun (p : String × Record) => strLtb key p.1 && KVStorage.liveb st.now p.2) := by
    funext p
    exact Bool.and_comm _ _
  rw [h2]

theorem ctorLoop_eq_foldl :
    ∀ (entries : List (String × String × Nat)) (st : KVStorage),
      KVStorage.ctorLoop entries st =
        entries.foldl (fun st2 e => st2.set e.1 e.2.1 e.2.2) st := by
  intro entries
  induction entries with
  | nil => intro st; rfl
  | cons e tl ih =>
    intro st
    obtain ⟨k, v, t⟩ := e
    simp only [KVStorage.ctorLoop, List.foldl_cons, ih]

theorem ctorLoop_append (l1 l2 : List (String × String × Nat)) (st : KVStorage) :
    KVStorage.ctorLoop (l1 ++ l2) st = KVStorage.ctorLoop l2 (KVStorage.ctorLoop l1 st) := by
  rw [ctorLoop_eq_foldl, ctorLoop_eq_foldl, ctorLoop_eq_foldl, List.foldl_append]

/-- C1: the claim states that `set` on a key that already has an expiry
first removes the old pair from the Expiry Index.  The code does not: after
`set("k","x",5)` (expiry 5) followed by `set("k","y",10)` at instant 0, the
old pair `(5, "k")` is still in the Expiry Index. -/
theorem claim_c1_code_evidence :
    (⟨5, "k"⟩ : ExpiryEntry) ∈
      (((KVStorage.empty 0).set "k" "x" 5).set "k" "y" 10).expiry_queue_ := by
  decide

/-- C2: the claim states invariant I1 holds in every state reachable by the
public operations from an empty engine.  It does not: after two `set` calls
from the empty engine (overwriting key "a", dropping its TTL), the pair
`(5, "a")` is orphaned in the Expiry Index while the record of "a" carries
no expiry, violating I1. -/
theorem claim_c2_code_evidence :
    ¬ KVStorage.I1 (((KVStorage.empty 0).set "a" "x" 5).set "a" "y" 0) := by
  rw [I1_iff_I1check]
  decide

/-- C7: the bulk constructor is the engine obtained from an empty engine by
one `set` per triple in order; appending a triple is a final `set`, and a
`set` of an already-present key overwrites its record (later duplicates
win). -/
theorem claim_c7 (entries : List (String × String × Nat)) (now : Nat) :
    KVStorage.ofEntries entries now =
      entries.foldl (fun st e => st.set e.1 e.2.1 e.2.2) (KVStorage.empty now) ∧
    (∀ (pre : List (String × String × Nat)) (k v : String) (t : Nat),
      KVStorage.ofEntries (pre ++ [(k, v, t)]) now = (KVStorage.ofEntries pre now).set k v t) ∧
    (∀ (st : KVStorage) (k v : String) (t : Nat),
      mfind (st.set k v t).records_ k =
        some ⟨v, if t ≠ 0 then some (st.now + t) else none⟩) := by
  refine ⟨ctorLoop_eq_foldl entries _, ?_, ?_⟩
  · intro pre k v t
    show KVStorage.ctorLoop (pre ++ [(k, v, t)]) _ = _
    rw [ctorLoop_append]
    rfl
  · intro st k v t
    exact mfind_massign_self _ _ _

/-- C8: `get` and `getManySorted` leave the engine state (Record Store,
Expiry Index and clock) exactly unchanged: they are `const` methods whose
state component is the input state. -/
theorem claim_c8 (st : KVStorage) (key : String) (count : Nat) :
    (st.get key).2 = st ∧ (st.getManySorted key count).2 = st :=
  ⟨rfl, rfl⟩

/-- C9: every public operation is deterministic: from equal states (which
include the instant the clock reports) and equal arguments, results and
successor states are equal. -/
theorem claim_c9 (st1 st2 : KVStorage) (h : st1 = st2) (k v bk : String) (ttl count : Nat) :
    st1.set k v ttl = st2.set k v ttl ∧
    st1.get k = st2.get k ∧
    st1.remove k = st2.remove k ∧
    st1.getManySorted bk count = st2.getManySorted bk count ∧
    st1.removeOneExpiredEntry = st2.removeOneExpiredEntry := by
  subst h
  exact ⟨rfl, rfl, rfl, rfl, rfl⟩

/-- C9 witness at a concrete pair of equal states. -/
theorem claim_c9_witness :
    (KVStorage.empty 0).set "k" "v" 3 = (KVStorage.empty 0).set "k" "v" 3 ∧
    (KVStorage.empty 0).get "k" = (KVStorage.empty 0).get "k" ∧
    (KVStorage.empty 0).remove "k" = (KVStorage.empty 0).remove "k" ∧
    (KVStorage.empty 0).getManySorted "b" 2 = (KVStorage.empty 0).getManySorted "b" 2 ∧
    (KVStorage.empty 0).removeOneExpiredEntry = (KVStorage.empty 0).removeOneExpiredEntry :=
  claim_c9 (KVStorage.empty 0) (KVStorage.empty 0) rfl "k" "v" "b" 3 2

/-- C10: `remove` is idempotent in effect: a second `remove` of the same key
immediately after a first one returns `false` and changes nothing. -/
theorem claim_c10 (st : KVStorage) (k : String) (hs : st.RecordsSorted) :
    (st.remove k).2.remove k = (false, (st.remove k).2) := by
  rcases hf : mfind st.records_ k with _ | r
  · have h2 : st.remove k = (false, st) := by simp [KVStorage.remove, hf]
    rw [h2]
    simp [KVStorage.remove, hf]
  · have h2 : (st.remove k).2.records_ = merase st.records_ k := by
      simp [KVStorage.remove, hf]
    have h3 : mfind (st.remove k).2.records_ k = none := by
      rw [h2]
      exact mfind_merase_self hs
    show KVStorage.remove (st.remove k).2 k = _
    rw [KVStorage.remove, h3]

/-- C10 witness at a concrete state. -/
theorem claim_c10_witness :
    (((KVStorage.empty 0).set "k" "v" 5).remove "k").2.remove "k" =
      (false, (((KVStorage.empty 0).set "k" "v" 5).remove "k").2) :=
  claim_c10 ((KVStorage.empty 0).set "k" "v" 5) "k" (by decide)

/-- C5: `get` returns none for an absent key; none for a present key whose
expiry is set and has passed, leaving the state (hence the entry) in place;
and the stored value otherwise.  TTL boundary: after `set k v t` with
`t > 0` at insertion instant `st.now`, a `get` at instant `st.now + d`
yields the value exactly when `d < t` (i.e. strictly before
insertion-time + t) and none from insertion-time + t onward. -/
theorem claim_c5 (st : KVStorage) (k v : String) (t d : Nat) (ht : 0 < t) :
    (mfind st.records_ k = none → (st.get k).1 = none) ∧
    (∀ r e, mfind st.records_ k = some r → r.expiry = some e → e ≤ st.now →
        (st.get k).1 = none ∧ (st.get k).2 = st) ∧
    (∀ r, mfind st.records_ k = some r →
        (∀ e, r.expiry = some e → st.now < e) → (st.get k).1 = some r.value) ∧
    (((st.set k v t).advance d).get k).1 = (if d < t then some v else none) := by
  refine ⟨?_, ?_, ?_, ?_⟩
  · intro h
    simp [KVStorage.get, h]
  · intro r e hr he hle
    exact ⟨by simp [KVStorage.get, hr, he, hle], rfl⟩
  · intro r hr hlt
    rcases he : r.expiry with _ | e
    · simp [KVStorage.get, hr, he]
    · have h2 := hlt e he
      simp [KVStorage.get, hr, he, Nat.not_le.mpr h2]
  · have ht0 : t ≠ 0 := Nat.pos_iff_ne_zero.mp ht
    have hset : mfind (((st.set k v t).advance d).records_) k =
        some ⟨v, some (st.now + t)⟩ := by
      show mfind (massign st.records_ k ⟨v, if t ≠ 0 then some (st.now + t) else none⟩) k = _
      rw [if_pos ht0]
      exact mfind_massign_self _ _ _
    have hnow : ((st.set k v t).advance d).now = st.now + d := rfl
    by_cases hd : d < t
    · have h3 : ¬ (st.now + t ≤ st.now + d) := by omega
      simp [KVStorage.get, hset, hnow, h3, hd]
    · have h3 : st.now + t ≤ st.now + d := by omega
      simp [KVStorage.get, hset, hnow, h3, hd]

/-- C5 witness: concrete engine `set("temp","value",5)` at instant 0, read
at instant 4 (still live). -/
theorem claim_c5_witness :
    ((mfind ((KVStorage.empty 0).set "temp" "value" 5).records_ "temp" = none →
        (((KVStorage.empty 0).set "temp" "value" 5).get "temp").1 = none) ∧
      (∀ r e, mfind ((KVStorage.empty 0).set "temp" "value" 5).records_ "temp" = some r →
          r.expiry = some e → e ≤ ((KVStorage.empty 0).set "temp" "value" 5).now →
          ((((KVStorage.empty 0).set "temp" "value" 5)).get "temp").1 = none ∧
          ((((KVStorage.empty 0).set "temp" "value" 5)).get "temp").2 =
            ((KVStorage.empty 0).set "temp" "value" 5)) ∧
      (∀ r, mfind ((KVStorage.empty 0).set "temp" "value" 5).records_ "temp" = some r →
          (∀ e, r.expiry = some e → ((KVStorage.empty 0).set "temp" "value" 5).now < e) →
          ((((KVStorage.empty 0).set "temp" "value" 5)).get "temp").1 = some r.value) ∧
      (((((KVStorage.empty 0).set "temp" "value" 5).set "temp" "value" 5).advance 4).get "temp").1 =
        (if 4 < 5 then some "value" else none)) :=
  claim_c5 ((KVStorage.empty 0).set "temp" "value" 5) "temp" "value" 5 4 (by decide)

/-- C6: `getManySorted(boundKey, count)` returns the first up to `count`
live entries with key strictly above `boundKey`, in ascending key order:
it equals the `count`-prefix of the live entries above the bound; every
returned key is strictly above (hence never equal to) the bound; returned
keys are strictly ascending; `count = 0` gives the empty list; and fewer
than `count` results are returned only when every live entry above the
bound is already included (the store is exhausted). -/
theorem claim_c6 (st : KVStorage) (key : String) (count : Nat) (hs : st.RecordsSorted) :
    (st.getManySorted key count).1 =
      ((st.records_.filter fun p => strLtb key p.1 && KVStorage.liveb st.now p.2).map
        fun p => (p.1, p.2.value)).take count ∧
    (∀ p ∈ (st.getManySorted key count).1, strLt key p.1 ∧ p.1 ≠ key) ∧
    ((st.getManySorted key count).1.map Prod.fst).Pairwise strLt ∧
    (st.getManySorted key 0).1 = [] ∧
    ((st.getManySorted key count).1.length < count →
      (st.getManySorted key count).1 =
        (st.records_.filter fun p => strLtb key p.1 && KVStorage.liveb st.now p.2).map
          fun p => (p.1, p.2.value)) := by
  have hmain := getManySorted_eq st key count hs
  have hfs : (st.records_.filter fun p => strLtb key p.1 && KVStorage.liveb st.now p.2).Pairwise
      (fun p q => strLt p.1 q.1) := hs.sublist (List.filter_sublist _)
  refine ⟨hmain, ?_, ?_, ?_, ?_⟩
  · intro p hp
    rw [hmain] at hp
    have hp2 : p ∈ (st.records_.filter fun p => strLtb key p.1 && KVStorage.liveb st.now p.2).map
        fun p => (p.1, p.2.value) := List.take_subset _ _ hp
    obtain ⟨q, hq, hpq⟩ := List.mem_map.mp hp2
    have hcond := (List.mem_filter.mp hq).2
    rw [Bool.and_eq_true] at hcond
    have hk : strLt key p.1 := by
      rw [← hpq]
      exact hcond.1
    exact ⟨hk, Ne.symm (strLt_ne hk)⟩
  · rw [hmain]
    have h1 : (((st.records_.filter fun p => strLtb key p.1 && KVStorage.liveb st.now p.2).map
        fun p => (p.1, p.2.value))).Pairwise (fun a b => strLt a.1 b.1) :=
      List.pairwise_map.mpr hfs
    have h2 := h1.sublist (List.take_sublist count _)
    exact List.pairwise_map.mpr h2
  · exact collectLoop_zero st.now _
  · intro hlen
    rw [hmain] at hlen ⊢
    rcases Nat.le_total ((st.records_.filter fun p => strLtb key p.1 &&
        KVStorage.liveb st.now p.2).map fun p => (p.1, p.2.value)).length count with h | h
    · exact List.take_of_length_le h
    · rw [List.length_take] at hlen
      have := Nat.min_eq_left h
      omega

/-- C6 witness at a concrete engine with an expired entry inside the range. -/
theorem claim_c6_witness :
    ((KVStorage.ofEntries [("a", "v1", 5), ("b", "v2", 0), ("c", "v3", 10)] 0).advance 6 |>.getManySorted "a" 3).1 =
      ((((KVStorage.ofEntries [("a", "v1", 5), ("b", "v2", 0), ("c", "v3", 10)] 0).advance 6).records_.filter
          fun p => strLtb "a" p.1 &&
            KVStorage.liveb ((KVStorage.ofEntries [("a", "v1", 5), ("b", "v2", 0), ("c", "v3", 10)] 0).advance 6).now p.2).map
        fun p => (p.1, p.2.value)).take 3 ∧
    (∀ p ∈ ((KVStorage.ofEntries [("a", "v1", 5), ("b", "v2", 0), ("c", "v3", 10)] 0).advance 6 |>.getManySorted "a" 3).1,
      strLt "a" p.1 ∧ p.1 ≠ "a") ∧
    (((KVStorage.ofEntries [("a", "v1", 5), ("b", "v2", 0), ("c", "v3", 10)] 0).advance 6 |>.getManySorted "a" 3).1.map
      Prod.fst).Pairwise strLt ∧
    ((KVStorage.ofEntries [("a", "v1", 5), ("b", "v2", 0), ("c", "v3", 10)] 0).advance 6 |>.getManySorted "a" 0).1 = [] ∧
    (((KVStorage.ofEntries [("a", "v1", 5), ("b", "v2", 0), ("c", "v3", 10)] 0).advance 6 |>.getManySorted "a" 3).1.length < 3 →
      ((KVStorage.ofEntries [("a", "v1", 5), ("b", "v2", 0), ("c", "v3", 10)] 0).advance 6 |>.getManySorted "a" 3).1 =
        (((KVStorage.ofEntries [("a", "v1", 5), ("b", "v2", 0), ("c", "v3", 10)] 0).advance 6).records_.filter
            fun p => strLtb "a" p.1 &&
              KVStorage.liveb ((KVStorage.ofEntries [("a", "v1", 5), ("b", "v2", 0), ("c", "v3", 10)] 0).advance 6).now p.2).map
          fun p => (p.1, p.2.value)) :=
  claim_c6 ((KVStorage.ofEntries [("a", "v1", 5), ("b", "v2", 0), ("c", "v3", 10)] 0).advance 6) "a" 3 (by decide)

/-- C3 as stated is false: in the state reached from an empty engine by
`set("a","x",5)`, `set("a","y",10)` and 5 seconds of clock advance, the
only stored record has expiry 10 > now = 5 (no stored entry is expired),
yet `removeOneExpiredEntry` returns `("a","y")` instead of none, because
the orphaned pair (5,"a") is still the minimum of the Expiry Index. -/
theorem claim_c3_counterexample :
    ((((KVStorage.empty 0).set "a" "x" 5).set "a" "y" 10).advance 5).removeOneExpiredEntry.1 =
        some ("a", "y") ∧
    (((((KVStorage.empty 0).set "a" "x" 5).set "a" "y" 10).advance 5).records_.all
        fun p => KVStorage.liveb ((((KVStorage.empty 0).set "a" "x" 5).set "a" "y" 10).advance 5).now p.2) =
      true := by
  decide

/-- C3 (amended): in every state whose Expiry Index is sorted and which
satisfies invariant I1, `removeOneExpiredEntry` returns none exactly when
no stored entry has an expiry ≤ the current instant; and when it returns a
pair `(k, v)`, then `k` is stored with an expiry that is ≤ now and minimal
among all stored expiries, and `v` is that record's value. -/
theorem claim_c3_amended (st : KVStorage) (hq : st.QueueSorted) (hinv : st.I1) :
    (st.removeOneExpiredEntry.1 = none ↔
      ∀ p ∈ st.records_, ∀ e, p.2.expiry = some e → st.now < e) ∧
    (∀ k v, st.removeOneExpiredEntry.1 = some (k, v) →
      ∃ r e, mfind st.records_ k = some r ∧ r.expiry = some e ∧ v = r.value ∧
        e ≤ st.now ∧ ∀ p ∈ st.records_, ∀ e2, p.2.expiry = some e2 → e ≤ e2) := by
  obtain ⟨hfwd, hbwd⟩ := hinv
  rcases hqe : st.expiry_queue_ with _ | ⟨ent, rest⟩
  · constructor
    · constructor
      · intro _ p hp e he
        have h2 := hfwd p hp e he
        rw [hqe] at h2
        simp at h2
      · intro _
        simp [KVStorage.removeOneExpiredEntry, hqe]
    · intro k v h
      simp [KVStorage.removeOneExpiredEntry, hqe] at h
  · have hmin : ∀ q ∈ st.expiry_queue_, ent.expiry ≤ q.expiry := by
      intro q hmem
      rw [hqe] at hmem
      rcases List.mem_cons.mp hmem with h | h
      · rw [h]
      · have hq2 : (ent :: rest).Pairwise ExpiryEntry.lt := by
          have h3 := hq
          unfold KVStorage.QueueSorted at h3
          rwa [hqe] at h3
        rcases List.rel_of_pairwise_cons hq2 h with h2 | ⟨h2, _⟩
        · exact le_of_lt h2
        · exact le_of_eq h2
    by_cases hnow : ent.expiry ≤ st.now
    · have hentmem : ent ∈ st.expiry_queue_ := by
        rw [hqe]
        exact List.mem_cons_self _ _
      obtain ⟨r, hr, hre⟩ := hbwd ent hentmem
      have hres : st.removeOneExpiredEntry.1 = some (ent.key, r.value) := by
        simp [KVStorage.removeOneExpiredEntry, hqe, hnow, hr]
      constructor
      · constructor
        · intro h
          rw [hres] at h
          simp at h
        · intro hall
          exfalso
          have h2 := hall (ent.key, r) (mfind_eq_some_mem hr) ent.expiry hre
          omega
      · intro k v h
        rw [hres] at h
        injection h with h2
        have hk : ent.key = k := congrArg Prod.fst h2
        have hv : r.value = v := congrArg Prod.snd h2
        subst hk
        subst hv
        refine ⟨r, ent.expiry, hr, hre, rfl, hnow, ?_⟩
        intro p hp e2 he2
        exact hmin ⟨e2, p.1⟩ (hfwd p hp e2 he2)
    · have hres : st.removeOneExpiredEntry.1 = none := by
        simp [KVStorage.removeOneExpiredEntry, hqe, hnow]
      constructor
      · constructor
        · intro _ p hp e he
          have h2 := hmin ⟨e, p.1⟩ (hfwd p hp e he)
          simp at h2
          omega
        · intro _
          exact hres
      · intro k v h
        rw [hres] at h
        simp at h

/-- C3 witness at a concrete well-formed engine (Scenario C of the spec):
keys "k1" (ttl 5) and "k2" (ttl 10) inserted at instant 0, clock at 6. -/
theorem claim_c3_witness :
    (((KVStorage.ofEntries [("k1", "v1", 5), ("k2", "v2", 10)] 0).advance 6).removeOneExpiredEntry.1 = none ↔
      ∀ p ∈ ((KVStorage.ofEntries [("k1", "v1", 5), ("k2", "v2", 10)] 0).advance 6).records_,
        ∀ e, p.2.expiry = some e →
          ((KVStorage.ofEntries [("k1", "v1", 5), ("k2", "v2", 10)] 0).advance 6).now < e) ∧
    (∀ k v, ((KVStorage.ofEntries [("k1", "v1", 5), ("k2", "v2", 10)] 0).advance 6).removeOneExpiredEntry.1 =
        some (k, v) →
      ∃ r e, mfind ((KVStorage.ofEntries [("k1", "v1", 5), ("k2", "v2", 10)] 0).advance 6).records_ k = some r ∧
        r.expiry = some e ∧ v = r.value ∧
        e ≤ ((KVStorage.ofEntries [("k1", "v1", 5), ("k2", "v2", 10)] 0).advance 6).now ∧
        ∀ p ∈ ((KVStorage.ofEntries [("k1", "v1", 5), ("k2", "v2", 10)] 0).advance 6).records_,
          ∀ e2, p.2.expiry = some e2 → e ≤ e2) :=
  claim_c3_amended ((KVStorage.ofEntries [("k1", "v1", 5), ("k2", "v2", 10)] 0).advance 6)
    (by decide) ((I1_iff_I1check _).mpr (by decide))

/-- C4 as stated is false: from the empty engine, `set("k","v",5)` then
`set("k","w",10)` leave two queue pairs for "k"; `remove("k")` returns true
and erases only the pair of the current expiry (10), leaving the orphan
(5,"k"); after the clock reaches 5 and with no further `set` of "k",
`removeOneExpiredEntry` returns the pair `("k","")` — its key equals the
removed key. -/
theorem claim_c4_counterexample :
    ((((KVStorage.empty 0).set "k" "v" 5).set "k" "w" 10).remove "k").1 = true ∧
    (((((KVStorage.empty 0).set "k" "v" 5).set "k" "w" 10).remove "k").2.get "k").1 = none ∧
    (((((KVStorage.empty 0).set "k" "v" 5).set "k" "w" 10).remove "k").2.advance 5).removeOneExpiredEntry.1 =
      some ("k", "") := by
  decide

theorem noKey_after_remove (st : KVStorage) (k : String)
    (hq : st.QueueSorted) (hinv : st.I1) :
    KVStorage.NoKeyInQueue k (st.remove k).2 := by
  intro q hq2 hkey
  rcases hr : mfind st.records_ k with _ | r
  · have h2 : (st.remove k).2 = st := by simp [KVStorage.remove, hr]
    rw [h2] at hq2
    obtain ⟨r2, hrf, _⟩ := hinv.2 q hq2
    rw [hkey, hr] at hrf
    exact Option.noConfusion hrf
  · rcases hre : r.expiry with _ | e
    · have h2 : (st.remove k).2.expiry_queue_ = st.expiry_queue_ := by
        simp [KVStorage.remove, hr, hre]
      rw [h2] at hq2
      obtain ⟨r2, hrf, hre2⟩ := hinv.2 q hq2
      rw [hkey, hr] at hrf
      have hr2 : r = r2 := Option.some.inj hrf
      rw [← hr2, hre] at hre2
      exact Option.noConfusion hre2
    · have h2 : (st.remove k).2.expiry_queue_ = qerase st.expiry_queue_ ⟨e, k⟩ := by
        simp [KVStorage.remove, hr, hre]
      rw [h2] at hq2
      obtain ⟨r2, hrf, hre2⟩ := hinv.2 q (mem_qerase hq2)
      rw [hkey, hr] at hrf
      have hr2 : r = r2 := Option.some.inj hrf
      rw [← hr2, hre] at hre2
      have hqq : q = ⟨e, k⟩ := by
        obtain ⟨qe, qk⟩ := q
        simp only at hkey hre2
        rw [hkey]
        obtain rfl := Option.some.inj hre2
        rfl
      rw [hqq] at hq2
      exact not_mem_qerase_self hq hq2

theorem noKeyInQueue_step {k0 : String} {st st2 : KVStorage}
    (h : KVStorage.StepAvoiding k0 st st2) (hn : KVStorage.NoKeyInQueue k0 st) :
    KVStorage.NoKeyInQueue k0 st2 := by
  cases h with
  | set key value ttl hk =>
    intro q hq
    by_cases ht : ttl ≠ 0
    · have h2 : (st.set key value ttl).expiry_queue_ =
          qinsert st.expiry_queue_ ⟨st.now + ttl, key⟩ := by
        simp [KVStorage.set, ht]
      rw [h2] at hq
      rcases mem_qinsert hq with h3 | h3
      · rw [h3]
        exact hk
      · exact hn q h3
    · have h2 : (st.set key value ttl).expiry_queue_ = st.expiry_queue_ := by
        simp [KVStorage.set, ht]
      rw [h2] at hq
      exact hn q hq
  | remove key =>
    intro q hq
    rcases hr : mfind st.records_ key with _ | r
    · have h2 : (st.remove key).2 = st := by simp [KVStorage.remove, hr]
      rw [h2] at hq
      exact hn q hq
    · rcases hre : r.expiry with _ | e
      · have h2 : (st.remove key).2.expiry_queue_ = st.expiry_queue_ := by
          simp [KVStorage.remove, hr, hre]
        rw [h2] at hq
        exact hn q hq
      · have h2 : (st.remove key).2.expiry_queue_ = qerase st.expiry_queue_ ⟨e, key⟩ := by
          simp [KVStorage.remove, hr, hre]
        rw [h2] at hq
        exact hn q (mem_qerase hq)
  | get key =>
    intro q hq
    exact hn q hq
  | getManySorted key count =>
    intro q hq
    exact hn q hq
  | removeOneExpiredEntry =>
    intro q hq
    rcases hqe : st.expiry_queue_ with _ | ⟨ent, rest⟩
    · have h2 : st.removeOneExpiredEntry.2 = st := by
        simp [KVStorage.removeOneExpiredEntry, hqe]
      rw [h2] at hq
      exact hn q hq
    · by_cases hnow : ent.expiry ≤ st.now
      · have h2 : st.removeOneExpiredEntry.2.expiry_queue_ = rest := by
          simp [KVStorage.removeOneExpiredEntry, hqe, hnow]
        rw [h2] at hq
        refine hn q ?_
        rw [hqe]
        exact List.mem_cons_of_mem _ hq
      · have h2 : st.removeOneExpiredEntry.2 = st := by
          simp [KVStorage.removeOneExpiredEntry, hqe, hnow]
        rw [h2] at hq
        exact hn q hq
  | advance d =>
    intro q hq
    exact hn q hq

theorem noKeyInQueue_reach {k0 : String} {st st2 : KVStorage}
    (h : KVStorage.ReachAvoiding k0 st st2) (hn : KVStorage.NoKeyInQueue k0 st) :
    KVStorage.NoKeyInQueue k0 st2 := by
  induction h with
  | refl => exact hn
  | tail hre hstep ih => exact noKeyInQueue_step hstep ih

theorem reap_key_ne {k0 : String} {st : KVStorage} (hn : KVStorage.NoKeyInQueue k0 st) :
    ∀ v, st.removeOneExpiredEntry.1 ≠ some (k0, v) := by
  intro v h
  rcases hqe : st.expiry_queue_ with _ | ⟨ent, rest⟩
  · simp [KVStorage.removeOneExpiredEntry, hqe] at h
  · by_cases hnow : ent.expiry ≤ st.now
    · have hres : st.removeOneExpiredEntry.1 =
          some (ent.key,
            match mfind st.records_ ent.key with
            | some r => r.value
            | none => "") := by
        simp [KVStorage.removeOneExpiredEntry, hqe, hnow]
      rw [hres] at h
      injection h with h2
      have hk : ent.key = k0 := congrArg Prod.fst h2
      refine hn ent ?_ hk
      rw [hqe]
      exact List.mem_cons_self _ _
    · simp [KVStorage.removeOneExpiredEntry, hqe, hnow] at h

/-- C4 (amended): for every well-formed state satisfying invariant I1, if
`remove k` returns true then `get k` on the resulting state returns none,
and in every state subsequently reachable by operations (and clock
advances) that include no `set` of `k`, `removeOneExpiredEntry` never
returns a pair whose key is `k`. -/
theorem claim_c4_amended (st : KVStorage) (k : String)
    (hr : st.RecordsSorted) (hq : st.QueueSorted) (hinv : st.I1)
    (hrem : (st.remove k).1 = true) :
    (((st.remove k).2.get k).1 = none) ∧
    ∀ st2, KVStorage.ReachAvoiding k (st.remove k).2 st2 →
      ∀ v, st2.removeOneExpiredEntry.1 ≠ some (k, v) := by
  constructor
  · rcases hf : mfind st.records_ k with _ | r
    · exfalso
      simp [KVStorage.remove, hf] at hrem
    · have h2 : (st.remove k).2.records_ = merase st.records_ k := by
        simp [KVStorage.remove, hf]
      have h3 : mfind (st.remove k).2.records_ k = none := by
        rw [h2]
        exact mfind_merase_self hr
      simp [KVStorage.get, h3]
  · intro st2 hreach
    exact reap_key_ne (noKeyInQueue_reach hreach (noKey_after_remove st k hq hinv))

/-- C4 witness at a concrete well-formed engine: one key with a TTL,
removed, then the clock advanced past the old expiry. -/
theorem claim_c4_witness :
    (((((KVStorage.empty 0).set "k" "v" 5).remove "k").2.get "k").1 = none) ∧
    ((((KVStorage.empty 0).set "k" "v" 5).remove "k").2.advance 6).removeOneExpiredEntry.1 ≠
      some ("k", "v") :=
  ⟨(claim_c4_amended ((KVStorage.empty 0).set "k" "v" 5) "k" (by decide) (by decide)
      ((I1_iff_I1check _).mpr (by decide)) (by decide)).1,
   (claim_c4_amended ((KVStorage.empty 0).set "k" "v" 5) "k" (by decide) (by decide)
      ((I1_iff_I1check _).mpr (by decide)) (by decide)).2
     (((((KVStorage.empty 0).set "k" "v" 5).remove "k").2.advance 6))
     (KVStorage.ReachAvoiding.tail (KVStorage.ReachAvoiding.refl _)
       (KVStorage.StepAvoiding.advance _ 6)) "v"⟩
